import Mathlib

/-!
Verification of the meson build driver script (sys/meson.py) of the
radare2 repository.

File contents are modelled as `List Char` (Python `str` is a sequence of
code points, and all slicing/indexing in the script is by code point).
Filesystems are modelled as association lists from paths (lists of path
components) to contents.  Subprocess invocations are modelled as traces
of `Step` values recording the constructed command lines.
-/

namespace R2Meson

/-! ### Semicolon-freeness of dependency entries -/

/-- A character list is `semiFree` when it contains no semicolon.
Entries produced by splitting on a semicolon always satisfy this. -/
def semiFree : List Char → Bool
  | [] => true
  | c :: cs => (c != ';') && semiFree cs

theorem semiFree_append {a b : List Char} (ha : semiFree a = true)
    (hb : semiFree b = true) : semiFree (a ++ b) = true := by
  induction a with
  | nil => simpa using hb
  | cons c cs ih =>
    simp only [semiFree, Bool.and_eq_true] at ha
    simp only [List.cons_append, semiFree, Bool.and_eq_true]
    exact ⟨ha.1, ih ha.2⟩

/-! ### Lexicographic order on character lists

Python compares strings lexicographically by code point; `lexLt` is that
strict order on `List Char`. -/

/-- Strict lexicographic order on character lists by code point,
matching Python string comparison. -/
def lexLt : List Char → List Char → Bool
  | [], [] => false
  | [], _ :: _ => true
  | _ :: _, [] => false
  | a :: as, b :: bs => if a < b then true else if b < a then false else lexLt as bs

theorem lexLt_irrefl (a : List Char) : lexLt a a = false := by
  induction a with
  | nil => rfl
  | cons c cs ih => simp [lexLt, ih]

theorem lexLt_trans {a b c : List Char} (hab : lexLt a b = true)
    (hbc : lexLt b c = true) : lexLt a c = true := by
  induction a generalizing b c with
  | nil =>
    cases b with
    | nil => exact absurd hab (by simp [lexLt])
    | cons y ys =>
      cases c with
      | nil => exact absurd hbc (by simp [lexLt])
      | cons z zs => simp [lexLt]
  | cons x xs ih =>
    cases b with
    | nil => exact absurd hab (by simp [lexLt])
    | cons y ys =>
      cases c with
      | nil => exact absurd hbc (by simp [lexLt])
      | cons z zs =>
        simp only [lexLt] at hab hbc ⊢
        rcases lt_trichotomy x y with hxy | hxy | hxy
        · rcases lt_trichotomy y z with hyz | hyz | hyz
          · rw [if_pos (lt_trans hxy hyz)]
          · subst hyz
            rw [if_pos hxy]
          · rw [if_neg (asymm hyz), if_pos hyz] at hbc
            exact absurd hbc (by simp)
        · subst hxy
          rw [if_neg (lt_irrefl x), if_neg (lt_irrefl x)] at hab
          rcases lt_trichotomy x z with hxz | hxz | hxz
          · rw [if_pos hxz]
          · subst hxz
            rw [if_neg (lt_irrefl x), if_neg (lt_irrefl x)] at hbc ⊢
            exact ih hab hbc
          · rw [if_neg (asymm hxz), if_pos hxz] at hbc
            exact absurd hbc (by simp)
        · rw [if_neg (asymm hxy), if_pos hxy] at hab
          exact absurd hab (by simp)

theorem lexLt_connex (a b : List Char) :
    a = b ∨ lexLt a b = true ∨ lexLt b a = true := by
  induction a generalizing b with
  | nil =>
    cases b with
    | nil => exact Or.inl rfl
    | cons y ys => exact Or.inr (Or.inl rfl)
  | cons x xs ih =>
    cases b with
    | nil => exact Or.inr (Or.inr rfl)
    | cons y ys =>
      rcases lt_trichotomy x y with hxy | hxy | hxy
      · exact Or.inr (Or.inl (by simp [lexLt, hxy]))
      · subst hxy
        rcases ih ys with h | h | h
        · exact Or.inl (by rw [h])
        · exact Or.inr (Or.inl (by simp [lexLt, h]))
        · exact Or.inr (Or.inr (by simp [lexLt, h]))
      · exact Or.inr (Or.inr (by simp [lexLt, hxy]))

theorem lexLt_asymm {a b : List Char} (h : lexLt a b = true) :
    lexLt b a = false := by
  by_contra hba
  have hba' : lexLt b a = true := by
    cases hh : lexLt b a
    · exact absurd hh hba
    · rfl
  have := lexLt_trans h hba'
  rw [lexLt_irrefl] at this
  exact Bool.false_ne_true this

/-! ### Sorting with de-duplication

`sortDedup` models Python's `sorted(set(xs))`: the unique strictly
increasing enumeration of the distinct elements of `xs`.  (Any correct
sort yields this same list, because a strictly sorted duplicate-free
list with a given membership set is unique.) -/

/-- Insert an element into a strictly sorted list, dropping it when it
is already present. -/
def insertSD (a : List Char) : List (List Char) → List (List Char)
  | [] => [a]
  | b :: bs => if a = b then b :: bs
               else if lexLt a b then a :: b :: bs
               else b :: insertSD a bs

/-- Model of Python `sorted(set(xs))` for lists of strings. -/
def sortDedup (l : List (List Char)) : List (List Char) :=
  l.foldr insertSD []

theorem mem_insertSD {x a : List Char} {l : List (List Char)} :
    x ∈ insertSD a l ↔ x = a ∨ x ∈ l := by
  induction l with
  | nil => simp [insertSD]
  | cons b bs ih =>
    simp only [insertSD]
    by_cases hab : a = b
    · rw [if_pos hab]
      subst hab
      simp only [List.mem_cons]
      tauto
    · rw [if_neg hab]
      by_cases hlt : lexLt a b = true
      · rw [if_pos hlt]
        simp only [List.mem_cons]
      · rw [if_neg hlt]
        simp only [List.mem_cons, ih]
        tauto

theorem mem_sortDedup {x : List Char} {l : List (List Char)} :
    x ∈ sortDedup l ↔ x ∈ l := by
  induction l with
  | nil => simp [sortDedup]
  | cons a as ih =>
    simp only [sortDedup, List.foldr_cons] at ih ⊢
    rw [mem_insertSD, ih, List.mem_cons]

theorem sorted_insertSD {a : List Char} {l : List (List Char)}
    (h : List.Pairwise (fun x y => lexLt x y = true) l) :
    List.Pairwise (fun x y => lexLt x y = true) (insertSD a l) := by
  induction l with
  | nil => simp [insertSD]
  | cons b bs ih =>
    simp only [insertSD]
    rcases List.pairwise_cons.mp h with ⟨hb, hbs⟩
    by_cases hab : a = b
    · simpa [hab] using h
    · rw [if_neg hab]
      by_cases hlt : lexLt a b = true
      · rw [if_pos hlt]
        refine List.pairwise_cons.mpr ⟨?_, h⟩
        intro y hy
        rcases List.mem_cons.mp hy with rfl | hy'
        · exact hlt
        · exact lexLt_trans hlt (hb y hy')
      · rw [if_neg hlt]
        refine List.pairwise_cons.mpr ⟨?_, ih hbs⟩
        intro y hy
        rcases mem_insertSD.mp hy with rfl | hy'
        · rcases lexLt_connex y b with h1 | h1 | h1
          · exact absurd h1 hab
          · exact absurd h1 hlt
          · exact h1
        · exact hb y hy'

theorem sorted_sortDedup (l : List (List Char)) :
    List.Pairwise (fun x y => lexLt x y = true) (sortDedup l) := by
  induction l with
  | nil => simp [sortDedup]
  | cons a as ih => exact sorted_insertSD ih

theorem nodup_of_sorted {l : List (List Char)}
    (h : List.Pairwise (fun x y => lexLt x y = true) l) : l.Nodup := by
  refine h.imp ?_
  intro a b hab
  intro hEq
  subst hEq
  rw [lexLt_irrefl] at hab
  exact Bool.false_ne_true hab

theorem insertSD_of_forall_lt {a : List Char} {l : List (List Char)}
    (h : ∀ y ∈ l, lexLt a y = true) : insertSD a l = a :: l := by
  cases l with
  | nil => rfl
  | cons b bs =>
    have hab : lexLt a b = true := h b (List.mem_cons_self b bs)
    have hne : a ≠ b := by
      intro hEq
      subst hEq
      rw [lexLt_irrefl] at hab
      exact Bool.false_ne_true hab
    simp [insertSD, hne, hab]

theorem sortDedup_of_sorted {l : List (List Char)}
    (h : List.Pairwise (fun x y => lexLt x y = true) l) : sortDedup l = l := by
  induction l with
  | nil => rfl
  | cons a as ih =>
    rcases List.pairwise_cons.mp h with ⟨ha, has⟩
    simp only [sortDedup, List.foldr_cons]
    have : as.foldr insertSD [] = as := ih has
    rw [this]
    exact insertSD_of_forall_lt ha

theorem sortDedup_ne_nil {l : List (List Char)} (h : l ≠ []) :
    sortDedup l ≠ [] := by
  cases l with
  | nil => exact absurd rfl h
  | cons a as =>
    intro hEq
    have : a ∈ sortDedup (a :: as) := mem_sortDedup.mpr (List.mem_cons_self a as)
    rw [hEq] at this
    exact List.not_mem_nil a this

/-! ### Splitting on semicolons and joining with semicolons

`splitSem` models Python `s.split(';')` and `joinSem` models
`';'.join(xs)`. -/

/-- Model of Python `s.split(';')` on character lists: always returns at
least one (possibly empty) part. -/
def splitSem : List Char → List (List Char)
  | [] => [[]]
  | c :: rest =>
    if c = ';' then [] :: splitSem rest
    else match splitSem rest with
         | [] => [[c]]
         | p :: ps => (c :: p) :: ps

/-- Model of Python `';'.join(xs)` on character lists. -/
def joinSem : List (List Char) → List Char
  | [] => []
  | e :: es =>
    match es with
    | [] => e
    | _ :: _ => e ++ ';' :: joinSem es

theorem joinSem_pair (e f : List Char) (fs : List (List Char)) :
    joinSem (e :: f :: fs) = e ++ ';' :: joinSem (f :: fs) := rfl

theorem splitSem_semi (rest : List Char) :
    splitSem (';' :: rest) = [] :: splitSem rest := by
  simp [splitSem]

theorem splitSem_cons_ne {c : Char} (hc : c ≠ ';') {rest : List Char}
    {p : List Char} {ps : List (List Char)} (h : splitSem rest = p :: ps) :
    splitSem (c :: rest) = (c :: p) :: ps := by
  simp only [splitSem, if_neg hc, h]

theorem splitSem_exists_cons (l : List Char) :
    ∃ p ps, splitSem l = p :: ps := by
  induction l with
  | nil => exact ⟨[], [], rfl⟩
  | cons c rest ih =>
    rcases ih with ⟨p, ps, hps⟩
    by_cases hc : c = ';'
    · subst hc
      exact ⟨[], splitSem rest, splitSem_semi rest⟩
    · exact ⟨c :: p, ps, splitSem_cons_ne hc hps⟩

theorem splitSem_semiFree {e : List Char} {l : List Char}
    (h : e ∈ splitSem l) : semiFree e = true := by
  induction l generalizing e with
  | nil =>
    simp only [splitSem, List.mem_singleton] at h
    subst h
    rfl
  | cons c rest ih =>
    rcases hsplit : splitSem rest with _ | ⟨p, ps⟩
    · rcases splitSem_exists_cons rest with ⟨p', ps', h'⟩
      rw [h'] at hsplit
      exact absurd hsplit (by simp)
    · by_cases hc : c = ';'
      · subst hc
        rw [splitSem_semi rest] at h
        rcases List.mem_cons.mp h with rfl | h'
        · rfl
        · exact ih h'
      · rw [splitSem_cons_ne hc hsplit] at h
        rcases List.mem_cons.mp h with rfl | h'
        · have hp : semiFree p = true := ih (by rw [hsplit]; exact List.mem_cons_self p ps)
          simp [semiFree, hc, hp]
        · exact ih (by rw [hsplit]; exact List.mem_cons_of_mem p h')

theorem joinSem_splitSem (l : List Char) : joinSem (splitSem l) = l := by
  induction l with
  | nil => rfl
  | cons c rest ih =>
    rcases hsplit : splitSem rest with _ | ⟨p, ps⟩
    · rcases splitSem_exists_cons rest with ⟨p', ps', h'⟩
      rw [h'] at hsplit
      exact absurd hsplit (by simp)
    · rw [hsplit] at ih
      by_cases hc : c = ';'
      · subst hc
        rw [splitSem_semi rest, hsplit, joinSem_pair, List.nil_append, ih]
      · rw [splitSem_cons_ne hc hsplit]
        cases ps with
        | nil =>
          simp only [joinSem] at ih ⊢
          rw [ih]
        | cons q qs =>
          rw [joinSem_pair] at ih ⊢
          rw [List.cons_append, ih]

theorem splitSem_of_semiFree {e : List Char} (h : semiFree e = true) :
    splitSem e = [e] := by
  induction e with
  | nil => rfl
  | cons c cs ih =>
    simp only [semiFree, Bool.and_eq_true, bne_iff_ne] at h
    exact splitSem_cons_ne h.1 (ih h.2)

theorem splitSem_append_semi {e rest : List Char} (h : semiFree e = true) :
    splitSem (e ++ ';' :: rest) = e :: splitSem rest := by
  induction e with
  | nil =>
    rw [List.nil_append, splitSem_semi]
  | cons c cs ih =>
    simp only [semiFree, Bool.and_eq_true, bne_iff_ne] at h
    rw [List.cons_append]
    exact splitSem_cons_ne h.1 (ih h.2)

theorem splitSem_joinSem {l : List (List Char)} (hne : l ≠ [])
    (hfree : ∀ e ∈ l, semiFree e = true) : splitSem (joinSem l) = l := by
  induction l with
  | nil => exact absurd rfl hne
  | cons e es ih =>
    cases es with
    | nil =>
      simp only [joinSem]
      exact splitSem_of_semiFree (hfree e (List.mem_singleton.mpr rfl))
    | cons f fs =>
      rw [joinSem_pair]
      rw [splitSem_append_semi (hfree e (List.mem_cons_self e (f :: fs)))]
      rw [ih (by simp) (fun x hx => hfree x (List.mem_cons_of_mem e hx))]

/-! ### Substring search

`findIdxOcc pat d` models Python `d.find(pat)`: the least index at which
`pat` occurs in `d` as a contiguous block (`none` when there is no
occurrence).  `findFrom data pat i` models `data.find(pat, i)`. -/

/-- Least index of an occurrence of `pat` in `d`, or `none`. -/
def findIdxOcc (pat : List Char) : List Char → Option Nat
  | [] => if pat.isPrefixOf [] then some 0 else none
  | c :: d =>
    if pat.isPrefixOf (c :: d) then some 0
    else (findIdxOcc pat d).map (· + 1)

/-- Model of Python `data.find(pat, i)` (restricted to `i ≤ len(data)`,
which is the only way the script calls it). -/
def findFrom (data pat : List Char) (i : Nat) : Option Nat :=
  match findIdxOcc pat (data.drop i) with
  | none => none
  | some j => some (i + j)

theorem isPrefixOf_iff_take {p l : List Char} :
    p.isPrefixOf l = true ↔ l.take p.length = p := by
  induction p generalizing l with
  | nil => simp [List.isPrefixOf]
  | cons a as ih =>
    cases l with
    | nil => simp [List.isPrefixOf]
    | cons b bs =>
      simp only [List.isPrefixOf, Bool.and_eq_true, beq_iff_eq, List.length_cons,
        List.take_succ_cons, List.cons.injEq, ih]
      tauto

theorem length_le_of_isPrefixOf {p l : List Char} (h : p.isPrefixOf l = true) :
    p.length ≤ l.length := by
  have := isPrefixOf_iff_take.mp h
  have hlen : (l.take p.length).length = p.length := by rw [this]
  rw [List.length_take] at hlen
  omega

theorem eq_false_of_ne_true {b : Bool} (h : ¬ b = true) : b = false := by
  cases b with
  | false => rfl
  | true => exact absurd rfl h

theorem findIdxOcc_occ {pat d : List Char} {j : Nat}
    (h : findIdxOcc pat d = some j) : pat.isPrefixOf (d.drop j) = true := by
  induction d generalizing j with
  | nil =>
    simp only [findIdxOcc] at h
    by_cases hp : pat.isPrefixOf [] = true
    · rw [if_pos hp] at h
      cases h
      exact hp
    · rw [if_neg hp] at h
      cases h
  | cons c d ih =>
    simp only [findIdxOcc] at h
    by_cases hp : pat.isPrefixOf (c :: d) = true
    · rw [if_pos hp] at h
      cases h
      exact hp
    · rw [if_neg hp] at h
      rcases hrec : findIdxOcc pat d with _ | j'
      · rw [hrec] at h
        cases h
      · rw [hrec] at h
        have h2 : some (j' + 1) = some j := h
        cases h2
        exact ih hrec

theorem findIdxOcc_min {pat d : List Char} {j : Nat}
    (h : findIdxOcc pat d = some j) :
    ∀ k, k < j → pat.isPrefixOf (d.drop k) = false := by
  induction d generalizing j with
  | nil =>
    intro k hk
    simp only [findIdxOcc] at h
    by_cases hp : pat.isPrefixOf [] = true
    · rw [if_pos hp] at h
      cases h
      omega
    · rw [if_neg hp] at h
      cases h
  | cons c d ih =>
    intro k hk
    simp only [findIdxOcc] at h
    by_cases hp : pat.isPrefixOf (c :: d) = true
    · rw [if_pos hp] at h
      cases h
      omega
    · rw [if_neg hp] at h
      rcases hrec : findIdxOcc pat d with _ | j'
      · rw [hrec] at h
        cases h
      · rw [hrec] at h
        have h2 : some (j' + 1) = some j := h
        cases h2
        cases k with
        | zero => exact eq_false_of_ne_true hp
        | succ k' =>
          rw [List.drop_succ_cons]
          exact ih hrec k' (by omega)

theorem findIdxOcc_of_occ {pat d : List Char} {m : Nat}
    (h : pat.isPrefixOf (d.drop m) = true) :
    ∃ j, j ≤ m ∧ findIdxOcc pat d = some j := by
  induction d generalizing m with
  | nil =>
    refine ⟨0, Nat.zero_le m, ?_⟩
    have : pat.isPrefixOf [] = true := by
      simpa [List.drop_nil] using h
    simp [findIdxOcc, this]
  | cons c d ih =>
    by_cases hp : pat.isPrefixOf (c :: d) = true
    · exact ⟨0, Nat.zero_le m, by simp [findIdxOcc, hp]⟩
    · cases m with
      | zero =>
        rw [List.drop_zero] at h
        exact absurd h hp
      | succ m' =>
        rw [List.drop_succ_cons] at h
        rcases ih h with ⟨j, hj, hrec⟩
        refine ⟨j + 1, by omega, ?_⟩
        simp [findIdxOcc, hp, hrec]

theorem findIdxOcc_eq_some {pat d : List Char} {j : Nat}
    (hocc : pat.isPrefixOf (d.drop j) = true)
    (hmin : ∀ k, k < j → pat.isPrefixOf (d.drop k) = false) :
    findIdxOcc pat d = some j := by
  rcases findIdxOcc_of_occ hocc with ⟨j', hj', hrec⟩
  have hocc' := findIdxOcc_occ hrec
  rcases Nat.lt_or_ge j' j with hlt | hge
  · rw [hmin j' hlt] at hocc'
    exact absurd hocc' (by simp)
  · have : j' = j := le_antisymm hj' hge
    rw [this] at hrec
    exact hrec

theorem isPrefixOf_congr {u v pat : List Char} {n j : Nat}
    (hn : u.take n = v.take n) (hj : j + pat.length ≤ n) :
    pat.isPrefixOf (u.drop j) = pat.isPrefixOf (v.drop j) := by
  have htake : (u.drop j).take pat.length = (v.drop j).take pat.length := by
    rw [List.take_drop, List.take_drop]
    have hmin : min (j + pat.length) n = j + pat.length := min_eq_left hj
    have h1 : u.take (j + pat.length) = v.take (j + pat.length) := by
      calc u.take (j + pat.length) = (u.take n).take (j + pat.length) := by
            rw [List.take_take, hmin]
        _ = (v.take n).take (j + pat.length) := by rw [hn]
        _ = v.take (j + pat.length) := by rw [List.take_take, hmin]
    rw [h1]
  cases hv : pat.isPrefixOf (v.drop j) with
  | true =>
    exact isPrefixOf_iff_take.mpr (by rw [htake]; exact isPrefixOf_iff_take.mp hv)
  | false =>
    apply eq_false_of_ne_true
    intro hu
    have h2 := isPrefixOf_iff_take.mp hu
    rw [htake] at h2
    rw [isPrefixOf_iff_take.mpr h2] at hv
    cases hv

theorem isPrefixOf_cons_shape {c : Char} {p w : List Char}
    (h : (c :: p).isPrefixOf w = true) : ∃ w2, w = c :: w2 := by
  cases w with
  | nil => simp [List.isPrefixOf] at h
  | cons b bs =>
    simp only [List.isPrefixOf, Bool.and_eq_true, beq_iff_eq] at h
    exact ⟨bs, by rw [h.1]⟩

theorem semiFree_drop {e : List Char} (h : semiFree e = true) (d : Nat) :
    semiFree (e.drop d) = true := by
  induction e generalizing d with
  | nil => simpa using h
  | cons c cs ih =>
    cases d with
    | zero => exact h
    | succ d2 =>
      simp only [semiFree, Bool.and_eq_true] at h
      exact ih h.2 d2

/-! ### The `vs_dedup` per-file rewrite

`vs_dedup` (sys/meson.py lines 143-162) processes each `*.vcxproj` file:
it finds the first `<AdditionalDependencies>` marker, then the first
`;%(AdditionalDependencies)` marker after it, splits the text in between
on `;`, collapses it to a set, rejoins the sorted entries, and writes
prefix + rejoined field + suffix back.  `vs_dedup_content` is that
per-file content transformation. -/

/-- The start marker `<AdditionalDependencies>` of the dependency field. -/
def startMarker : List Char := "<AdditionalDependencies>".data

/-- The characters of the end marker after its leading semicolon. -/
def endTail : List Char := "%(AdditionalDependencies)".data

/-- The end marker `;%(AdditionalDependencies)` of the dependency field. -/
def endMarker : List Char := ';' :: endTail

/-- Per-file content transformation performed by `vs_dedup`:
`idx = data.find(start); idx += len(start); idx2 = data.find(end, idx)`,
then write `data[:idx] + ';'.join(sorted(set(data[idx:idx2].split(';')))) + data[idx2:]`.
Files in which either marker is missing are left untouched. -/
def vs_dedup_content (data : List Char) : List Char :=
  match findIdxOcc startMarker data with
  | none => data
  | some i =>
    let idx := i + startMarker.length
    match findFrom data endMarker idx with
    | none => data
    | some idx2 =>
      data.take idx
        ++ joinSem (sortDedup (splitSem ((data.drop idx).take (idx2 - idx))))
        ++ data.drop idx2

theorem vs_dedup_content_none_start {data : List Char}
    (h : findIdxOcc startMarker data = none) : vs_dedup_content data = data := by
  simp [vs_dedup_content, h]

theorem vs_dedup_content_none_end {data : List Char} {i : Nat}
    (h1 : findIdxOcc startMarker data = some i)
    (h2 : findIdxOcc endMarker (data.drop (i + startMarker.length)) = none) :
    vs_dedup_content data = data := by
  simp [vs_dedup_content, findFrom, h1, h2]

theorem vs_dedup_content_eq {data : List Char} {i j : Nat}
    (h1 : findIdxOcc startMarker data = some i)
    (h2 : findIdxOcc endMarker (data.drop (i + startMarker.length)) = some j) :
    vs_dedup_content data =
      data.take (i + startMarker.length)
        ++ joinSem (sortDedup (splitSem ((data.drop (i + startMarker.length)).take j)))
        ++ data.drop (i + startMarker.length + j) := by
  simp only [vs_dedup_content, findFrom, h1, h2]
  rw [Nat.add_sub_cancel_left]

/-! ### Fixed-point analysis used for idempotence -/

theorem joinSem_take_sep {l : List (List Char)}
    (hfree : ∀ e ∈ l, semiFree e = true) :
    ∀ {d : Nat} {tail : List Char},
      (joinSem l).drop d = ';' :: tail →
      ∃ k, 1 ≤ k ∧ (joinSem l).take d = joinSem (l.take k) := by
  induction l with
  | nil =>
    intro d tail h
    rw [show joinSem [] = [] from rfl, List.drop_nil] at h
    simp at h
  | cons e es ih =>
    intro d tail h
    cases es with
    | nil =>
      exfalso
      have hfe : semiFree e = true := hfree e (List.mem_singleton.mpr rfl)
      have hsf : semiFree (e.drop d) = true := semiFree_drop hfe d
      rw [show joinSem [e] = e from rfl] at h
      rw [h] at hsf
      simp [semiFree] at hsf
    | cons f fs =>
      rw [joinSem_pair] at h ⊢
      have hfe : semiFree e = true := hfree e (List.mem_cons_self e (f :: fs))
      rcases Nat.lt_trichotomy d e.length with hd | hd | hd
      · exfalso
        rw [List.drop_append_of_le_length (Nat.le_of_lt hd)] at h
        have hlen : (e.drop d).length = e.length - d := List.length_drop d e
        rcases hdrop : e.drop d with _ | ⟨c, cs⟩
        · rw [hdrop] at hlen
          simp at hlen
          omega
        · rw [hdrop, List.cons_append] at h
          injection h with hc hrest
          have hsf : semiFree (e.drop d) = true := semiFree_drop hfe d
          rw [hdrop, hc] at hsf
          simp [semiFree] at hsf
      · refine ⟨1, le_refl 1, ?_⟩
        subst hd
        rw [List.take_left]
        rfl
      · have hd2 : e.length + (d - e.length) = d := by omega
        rw [← hd2, List.drop_append] at h
        have hd3 : (d - e.length) = 1 + (d - e.length - 1) := by omega
        rw [hd3, show (1 : Nat) + (d - e.length - 1) = [';'].length + (d - e.length - 1) from rfl] at h
        rw [show (';' :: joinSem (f :: fs) : List Char) = [';'] ++ joinSem (f :: fs) from rfl, List.drop_append] at h
        rcases ih (fun x hx => hfree x (List.mem_cons_of_mem e hx)) h with ⟨k, hk, htake⟩
        refine ⟨k + 1, by omega, ?_⟩
        rw [← hd2, List.take_append, hd3]
        rw [show (1 : Nat) + (d - e.length - 1) = [';'].length + (d - e.length - 1) from rfl]
        rw [show (';' :: joinSem (f :: fs) : List Char) = [';'] ++ joinSem (f :: fs) from rfl, List.take_append]
        rw [htake]
        cases k with
        | zero => exact absurd hk (by omega)
        | succ k2 =>
          rw [show ((e :: f :: fs).take (k2 + 1 + 1) : List (List Char)) = e :: f :: fs.take k2 from rfl]
          rw [show ((f :: fs).take (k2 + 1) : List (List Char)) = f :: fs.take k2 from rfl]
          rw [joinSem_pair]
          rfl

theorem dedup_field_fixed {l : List (List Char)} {T : List Char} {d : Nat}
    (hl : List.Pairwise (fun x y => lexLt x y = true) l)
    (hfree : ∀ e ∈ l, semiFree e = true)
    (hne : l ≠ [])
    (hocc : endMarker.isPrefixOf ((joinSem l ++ T).drop d) = true)
    (hdle : d ≤ (joinSem l).length) :
    joinSem (sortDedup (splitSem ((joinSem l ++ T).take d))) = (joinSem l ++ T).take d := by
  have htake : (joinSem l ++ T).take d = (joinSem l).take d :=
    List.take_append_of_le_length hdle
  rw [htake]
  rcases Nat.lt_or_ge d (joinSem l).length with hdlt | hdge
  · rw [show endMarker = ';' :: endTail from rfl] at hocc
    rcases isPrefixOf_cons_shape hocc with ⟨w2, hw⟩
    have hdrop : (joinSem l ++ T).drop d = (joinSem l).drop d ++ T :=
      List.drop_append_of_le_length (Nat.le_of_lt hdlt)
    rw [hdrop] at hw
    have hlen : ((joinSem l).drop d).length = (joinSem l).length - d :=
      List.length_drop _ _
    rcases hshape : (joinSem l).drop d with _ | ⟨c, cs⟩
    · rw [hshape] at hlen
      simp at hlen
      omega
    · rw [hshape, List.cons_append] at hw
      injection hw with hc hrest
      subst hc
      rcases joinSem_take_sep hfree hshape with ⟨k, hk, htk⟩
      rw [htk]
      have hne2 : l.take k ≠ [] := by
        cases l with
        | nil => exact absurd rfl hne
        | cons a as =>
          cases k with
          | zero => exact absurd hk (by omega)
          | succ k2 => simp
      have hfree2 : ∀ e ∈ l.take k, semiFree e = true :=
        fun e he => hfree e (List.take_subset k l he)
      rw [splitSem_joinSem hne2 hfree2]
      rw [sortDedup_of_sorted (List.Pairwise.sublist (List.take_sublist k l) hl)]
  · have hdeq : d = (joinSem l).length := le_antisymm hdle hdge
    subst hdeq
    rw [List.take_length]
    rw [splitSem_joinSem hne hfree, sortDedup_of_sorted hl]

theorem vs_dedup_pass2 {data P F T : List Char} {i j : Nat}
    (h1 : findIdxOcc startMarker data = some i)
    (h2 : findIdxOcc endMarker (data.drop (i + startMarker.length)) = some j)
    (hP : P = data.take (i + startMarker.length))
    (hT : T = data.drop (i + startMarker.length + j)) :
    vs_dedup_content (P ++ (joinSem (sortDedup (splitSem F)) ++ T))
      = P ++ (joinSem (sortDedup (splitSem F)) ++ T) := by
  obtain ⟨l, hldef⟩ : ∃ x, x = sortDedup (splitSem F) := ⟨_, rfl⟩
  rw [← hldef]
  have hlsorted : List.Pairwise (fun x y => lexLt x y = true) l := by
    rw [hldef]
    exact sorted_sortDedup _
  have hlfree : ∀ e ∈ l, semiFree e = true := by
    intro e he
    rw [hldef] at he
    exact splitSem_semiFree (mem_sortDedup.mp he)
  have hlne : l ≠ [] := by
    rw [hldef]
    rcases splitSem_exists_cons F with ⟨p, ps, hps⟩
    apply sortDedup_ne_nil
    rw [hps]
    simp
  have hS : startMarker.isPrefixOf (data.drop i) = true := findIdxOcc_occ h1
  have hSmin := findIdxOcc_min h1
  have hilen : i + startMarker.length ≤ data.length := by
    have h3 := length_le_of_isPrefixOf hS
    rw [List.length_drop] at h3
    have h4 : startMarker.length = 24 := rfl
    omega
  have hPlen : P.length = i + startMarker.length := by
    rw [hP, List.length_take]
    exact min_eq_left hilen
  have hEoccT : endMarker.isPrefixOf T = true := by
    have h5 := findIdxOcc_occ h2
    rw [List.drop_drop] at h5
    rw [hT]
    exact h5
  have htakeEq : (P ++ (joinSem l ++ T)).take (i + startMarker.length)
      = data.take (i + startMarker.length) := by
    rw [List.take_left' hPlen, hP]
  have hA : findIdxOcc startMarker (P ++ (joinSem l ++ T)) = some i := by
    apply findIdxOcc_eq_some
    · rw [isPrefixOf_congr htakeEq (le_refl (i + startMarker.length))]
      exact hS
    · intro k hk
      rw [isPrefixOf_congr htakeEq (by omega)]
      exact hSmin k hk
  have hdrop : (P ++ (joinSem l ++ T)).drop (i + startMarker.length)
      = joinSem l ++ T := List.drop_left' hPlen
  have hoccM : endMarker.isPrefixOf ((joinSem l ++ T).drop (joinSem l).length) = true := by
    rw [List.drop_left]
    exact hEoccT
  obtain ⟨d, hdle, hD⟩ := findIdxOcc_of_occ hoccM
  have hoccd : endMarker.isPrefixOf ((joinSem l ++ T).drop d) = true := findIdxOcc_occ hD
  have hB : findIdxOcc endMarker ((P ++ (joinSem l ++ T)).drop (i + startMarker.length))
      = some d := by
    rw [hdrop]
    exact hD
  rw [vs_dedup_content_eq hA hB]
  rw [htakeEq, ← hP, hdrop]
  have hdropd : (P ++ (joinSem l ++ T)).drop (i + startMarker.length + d)
      = (joinSem l ++ T).drop d := by
    rw [← List.drop_drop, hdrop]
  rw [hdropd]
  rw [dedup_field_fixed hlsorted hlfree hlne hoccd hdle]
  rw [List.append_assoc, List.take_append_drop]

/-- Core idempotence of the per-file rewrite of `vs_dedup`: running the
rewrite a second time on an already rewritten file leaves it unchanged. -/
theorem vs_dedup_content_idem (data : List Char) :
    vs_dedup_content (vs_dedup_content data) = vs_dedup_content data := by
  rcases h1 : findIdxOcc startMarker data with _ | i
  · rw [vs_dedup_content_none_start h1, vs_dedup_content_none_start h1]
  · rcases h2 : findIdxOcc endMarker (data.drop (i + startMarker.length)) with _ | j
    · rw [vs_dedup_content_none_end h1 h2, vs_dedup_content_none_end h1 h2]
    · rw [vs_dedup_content_eq h1 h2, List.append_assoc]
      exact vs_dedup_pass2 h1 h2 rfl rfl

/-! ### Glob matching

Model of the Python `glob` module as used by `copy`, `move`, `vs_dedup`
and `xp_compat`.  Paths are lists of path components (strings); a
filesystem is the list of its existing entries.  `fnmatchChars` models
`fnmatch` translation of a single component pattern (`*` matches any
run of characters, `?` any single character; character classes are not
used by any pattern in this script).  A wildcard component does not
match names starting with a dot, and a recursive `**` component matches
zero or more non-hidden components, as in the Python implementation. -/

/-- All suffixes of a character list, longest first. -/
def suffixes : List Char → List (List Char)
  | [] => [[]]
  | c :: cs => (c :: cs) :: suffixes cs

/-- Single-component pattern match, as in Python fnmatch. -/
def fnmatchChars : List Char → List Char → Bool
  | [], cs => cs.isEmpty
  | p :: ps, cs =>
    if p = '*' then (suffixes cs).any (fun t => fnmatchChars ps t)
    else
      match cs with
      | [] => false
      | c :: cs2 => ((p == '?') || (p == c)) && fnmatchChars ps cs2

/-- Whether a path component is hidden (starts with a dot). -/
def isHiddenS (s : String) : Bool :=
  match s.data with
  | '.' :: _ => true
  | _ => false

/-- Match of a single path component against a single pattern
component: hidden names are only matched by patterns that themselves
start with a dot. -/
def compMatch (pat name : String) : Bool :=
  if isHiddenS name && !isHiddenS pat then false
  else fnmatchChars pat.data name.data

/-- Candidate suffixes of a path reachable by a recursive `**`
component: drop zero or more leading non-hidden components. -/
def dropCandidates : List String → List (List String)
  | [] => [[]]
  | c :: rest => (c :: rest) :: (if isHiddenS c then [] else dropCandidates rest)

/-- Whole-path glob match.  When `rec` is false a `**` component is an
ordinary wildcard pattern matching exactly one component (this is what
`glob.iglob` does when `recursive` is not passed). -/
def pathGlobMatch (rec : Bool) : List String → List String → Bool
  | [], path => path.isEmpty
  | pc :: ps, path =>
    if rec && pc == "**" then
      (dropCandidates path).any (fun t => pathGlobMatch rec ps t)
    else
      match path with
      | [] => false
      | c :: rest => compMatch pc c && pathGlobMatch rec ps rest

/-- Model of `glob.iglob(pattern, recursive=rec)` over the list of
existing filesystem entries: the matching entries, in filesystem
order. -/
def iglob (paths : List (List String)) (pat : List String) (rec : Bool) :
    List (List String) :=
  paths.filter (fun p => pathGlobMatch rec pat p)

/-- Model of the Python expression `'**' in src` (substring test on the
joined path, which holds exactly when some component contains `**`). -/
def hasDoubleStar (pat : List String) : Bool :=
  pat.any (fun c => (findIdxOcc "**".data c.data).isSome)

/-- Entries iterated over by `move` (sys/meson.py line 106):
`glob.iglob(src)`, with the default `recursive=False`. -/
def moveMatches (paths : List (List String)) (src : List String) :
    List (List String) :=
  iglob paths src false

/-- Entries iterated over by `copy` (sys/meson.py line 114):
`glob.iglob(src, recursive='**' in src)`. -/
def copyMatches (paths : List (List String)) (src : List String) :
    List (List String) :=
  iglob paths src (hasDoubleStar src)

theorem compMatch_double_star {c : String} (h : compMatch "**" c = true) :
    isHiddenS c = false := by
  by_cases hc : isHiddenS c = true
  · exfalso
    rw [compMatch, hc] at h
    simp only [show isHiddenS "**" = false from rfl] at h
    simp at h
  · exact eq_false_of_ne_true hc

theorem self_mem_dropCandidates (p : List String) : p ∈ dropCandidates p := by
  cases p with
  | nil => simp [dropCandidates]
  | cons c r => simp [dropCandidates]

theorem pathGlobMatch_nonrec_imp_rec {pat path : List String}
    (h : pathGlobMatch false pat path = true) :
    pathGlobMatch true pat path = true := by
  induction pat generalizing path with
  | nil =>
    simpa [pathGlobMatch] using h
  | cons pc ps ih =>
    cases path with
    | nil =>
      exfalso
      simp [pathGlobMatch] at h
    | cons c rest =>
      simp only [pathGlobMatch, Bool.false_and, if_false] at h
      rcases Bool.and_eq_true_iff.mp h with ⟨hcm, hrest⟩
      have hih := ih hrest
      simp only [pathGlobMatch, Bool.true_and]
      by_cases hstar : pc == "**"
      · rw [if_pos hstar]
        apply List.any_eq_true.mpr
        have hpc : pc = "**" := by
          exact eq_of_beq hstar
        have hch : isHiddenS c = false := by
          apply compMatch_double_star
          rw [← hpc]
          exact hcm
        refine ⟨rest, ?_, hih⟩
        simp only [dropCandidates, hch, if_false]
        exact List.mem_cons_of_mem _ (self_mem_dropCandidates rest)
      · rw [if_neg hstar]
        exact Bool.and_eq_true_iff.mpr ⟨hcm, hih⟩

/-- Every entry `move` iterates over is also one `copy` would iterate
over for the same source pattern. -/
theorem moveMatches_subset_copyMatches (paths : List (List String))
    (src : List String) :
    (moveMatches paths src).all
      (fun p => (copyMatches paths src).contains p) = true := by
  apply List.all_eq_true.mpr
  intro p hp
  simp only [moveMatches, iglob] at hp
  rcases List.mem_filter.mp hp with ⟨hmem, hmatch⟩
  apply List.elem_eq_true_of_mem
  simp only [copyMatches, iglob]
  apply List.mem_filter.mpr
  refine ⟨hmem, ?_⟩
  cases hds : hasDoubleStar src with
  | false => exact hmatch
  | true => exact pathGlobMatch_nonrec_imp_rec hmatch

/-! ### Filesystem models

`FileSys` is an association list from paths to file contents, used for
the project post-processing routines.  `MFS` additionally records the
existing directories, which the staging primitives need (`shutil.copy2`
appends the basename when the destination is a directory). -/

/-- Files of a build tree: paths (component lists) with their contents. -/
abbrev FileSys := List (List String × List Char)

/-- Look up the content of a file (Python `open(path).read()`);
`none` models `FileNotFoundError`. -/
def lookupFile (fs : FileSys) (p : List String) : Option (List Char) :=
  (fs.find? (fun e => e.1 == p)).map (fun e => e.2)

/-- Glob pattern `os.path.join(builddir, '**', '*.vcxproj')` used by
both `vs_dedup` and `xp_compat` (with `recursive=True`). -/
def vcxprojPattern (builddir : List String) : List String :=
  builddir ++ ["**", "*.vcxproj"]

/-- Model of `vs_dedup(builddir)` (sys/meson.py lines 143-162): apply
the per-file rewrite to every `*.vcxproj` file under the build
directory; all other files are untouched. -/
def vs_dedup_fs (fs : FileSys) (builddir : List String) : FileSys :=
  fs.map (fun e =>
    if pathGlobMatch true (vcxprojPattern builddir) e.1 then
      (e.1, vs_dedup_content e.2)
    else e)

/-! ### The `xp_compat` routine -/

/-- Marker opening the toolset-version token. -/
def ptOpen : List Char := "<PlatformToolset>".data

/-- Marker closing the toolset-version token. -/
def ptClose : List Char := "</PlatformToolset>".data

/-- Whether the close marker can end a regex match at offset `q` of the
text following the open marker: the close marker starts at `q` and the
skipped text contains no newline (`.` does not match a newline). -/
def ptCloseAt (s : List Char) (q : Nat) : Bool :=
  ptClose.isPrefixOf (s.drop q) && !((s.take q).contains '\n')

/-- Greedy capture length for `(.*)` before `</PlatformToolset>`: the
largest admissible close offset, as Python's greedy `.*` selects. -/
def ptGreedy (s : List Char) : Option Nat :=
  ((List.range (s.length + 1)).filter (fun q => ptCloseAt s q)).max?

/-- Model of `re.search('<PlatformToolset>(.*)</PlatformToolset>', text)`
returning the captured group: leftmost match start, then greedy capture. -/
def searchPlatformToolset (text : List Char) : Option (List Char) :=
  match (List.range (text.length + 1)).find?
      (fun p => ptOpen.isPrefixOf (text.drop p)
                  && (ptGreedy (text.drop (p + ptOpen.length))).isSome) with
  | none => none
  | some p =>
    match ptGreedy (text.drop (p + ptOpen.length)) with
    | none => none
    | some q => some ((text.drop (p + ptOpen.length)).take q)

/-- Model of Python `s.replace(old, new)`: replace all non-overlapping
occurrences, scanning left to right. -/
def replaceAll (pat rep : List Char) : List Char → List Char
  | [] => if pat.isEmpty then rep else []
  | c :: s2 =>
    if pat.isEmpty then rep ++ c :: replaceAll pat rep s2
    else if pat.isPrefixOf (c :: s2) then
      rep ++ replaceAll pat rep ((c :: s2).drop pat.length)
    else c :: replaceAll pat rep s2
termination_by s => s.length
decreasing_by
  all_goals simp_wf
  all_goals cases pat
  all_goals simp_all

/-- Failure modes of `xp_compat`: the fixed project file is missing, or
the toolset marker is absent (the `re.search` result is `None`, so
accessing `.group(1)` raises; the spec calls this `ParseError`). -/
inductive XpError where
  | fileNotFound : XpError
  | parseError : XpError
deriving DecidableEq

/-- Model of `xp_compat(builddir)` (sys/meson.py lines 122-141): read
`REGEN.vcxproj`, extract the toolset token; if it already ends in `_xp`
return with the file set unchanged, otherwise rewrite every
`*.vcxproj` under the build directory replacing the token. -/
def xp_compat (fs : FileSys) (builddir : List String) : Except XpError FileSys :=
  match lookupFile fs (builddir ++ ["REGEN.vcxproj"]) with
  | none => Except.error XpError.fileNotFound
  | some content =>
    match searchPlatformToolset content with
    | none => Except.error XpError.parseError
    | some version =>
      if "_xp".data.isSuffixOf version then Except.ok fs
      else
        Except.ok (fs.map (fun e =>
          if pathGlobMatch true (vcxprojPattern builddir) e.1 then
            (e.1, replaceAll version (version ++ "_xp".data) e.2)
          else e))

/-! ### Staging filesystem with directories, and the `copy` effect -/

/-- A filesystem for the staging primitives: files with contents plus
the set of existing directories. -/
structure MFS where
  files : List (List String × List Char)
  dirs : List (List String)
deriving DecidableEq

/-- All existing entries (files and directories). -/
def allPaths (fs : MFS) : List (List String) :=
  fs.files.map (fun e => e.1) ++ fs.dirs

/-- Final path component. -/
def basenameP (p : List String) : String := p.getLastD ""

/-- Effect of `shutil.copy2(src, dst)` on the model filesystem: write
the source content at `dst` (or `dst/basename(src)` when `dst` is an
existing directory). -/
def copy2 (fs : MFS) (src dst : List String) : MFS :=
  let content := (lookupFile fs.files src).getD []
  let target := if fs.dirs.contains dst then dst ++ [basenameP src] else dst
  { fs with files := (target, content) :: fs.files.filter (fun e => e.1 != target) }

/-- Model of `copy(src, dst)` (sys/meson.py lines 109-115) after
template expansion: run `shutil.copy2` on every entry of
`glob.iglob(src, recursive='**' in src)`, in order. -/
def copyOp (fs : MFS) (src dst : List String) : MFS :=
  (copyMatches (allPaths fs) src).foldl (fun g f => copy2 g f dst) fs

/-! ### External tool invokers, build orchestrator and CLI entry point

`Step` records the actions of a run.  The three `call*` constructors
carry the exact command line the script builds before
`subprocess.call`; `runVsDedup`/`runXpCompat` are the in-process
post-processing passes, and `runInstall` the optional install phase
(which spawns no subprocess). -/

inductive Step where
  | callMeson : List String → Step
  | callNinja : List String → Step
  | callMsbuild : List String → Step
  | runVsDedup : String → Step
  | runXpCompat : String → Step
  | runInstall : Step
deriving DecidableEq

/-- Whether a step is an invocation of the generator (meson). -/
def Step.isGenerator : Step → Bool
  | Step.callMeson _ => true
  | _ => false

/-- Whether a step is a subprocess invocation at all. -/
def Step.isSubprocess : Step → Bool
  | Step.callMeson _ => true
  | Step.callNinja _ => true
  | Step.callMsbuild _ => true
  | _ => false

/-- Command line constructed by `meson(...)` (sys/meson.py lines
50-71).  `mesonExe` is the global `MESON` launcher (`['meson']` on
POSIX, a python-launcher pair on Windows).  A `None` or empty prefix or
backend is falsy in Python and emits no option. -/
def mesonCommand (mesonExe : List String) (root buildd : String)
    (pfx backend : Option String) (release shared : Bool)
    (options : List String) : List String :=
  mesonExe ++ [root, buildd]
    ++ (match pfx with
        | some p => if p = "" then [] else ["--prefix=" ++ p]
        | none => [])
    ++ (match backend with
        | some b => if b = "" then [] else ["--backend=" ++ b]
        | none => [])
    ++ (if release then ["--buildtype=release"] else [])
    ++ (if shared then ["--default-library=shared"]
        else ["--default-library=static"])
    ++ options

/-- Command line constructed by `ninja(folder, *targets)` (lines 73-82). -/
def ninjaCommand (folder : String) (targets : List String) : List String :=
  ["ninja", "-C", folder] ++ targets

/-- Command line constructed by `msbuild(project, *params)` (lines 84-93). -/
def msbuildCommand (project : String) (params : List String) : List String :=
  ["msbuild", project] ++ params

/-- Model of `os.path.join` on two components. -/
def pathJoin (a b : String) : String := a ++ "/" ++ b

/-- The flag set consumed by `build(args)`. -/
structure BuildArgs where
  project : Bool
  release : Bool
  backend : String
  shared : Bool
  prefixOpt : Option String
  dir : String
  xp : Bool
deriving DecidableEq

/-- Model of `build(args)` (sys/meson.py lines 209-224): invoke meson
only when the build directory does not yet exist; then, for the default
`ninja` backend run ninja on the build directory, and for any other
backend run the dedup pass, optionally the XP patch, and (unless
`--project`) msbuild on the fixed solution file. -/
def buildSteps (mesonExe : List String) (root : String) (args : BuildArgs)
    (builddirExists : Bool) : List Step :=
  let r2_builddir := pathJoin root args.dir
  (if builddirExists then []
   else [Step.callMeson (mesonCommand mesonExe root r2_builddir args.prefixOpt
           (some args.backend) args.release args.shared [])])
  ++ (if args.backend != "ninja" then
        [Step.runVsDedup r2_builddir]
        ++ (if args.xp then [Step.runXpCompat r2_builddir] else [])
        ++ (if args.project then []
            else [Step.callMsbuild
                   (msbuildCommand (pathJoin r2_builddir "radare2.sln") ["/m"])])
      else [Step.callNinja (ninjaCommand r2_builddir [])])

/-- The full parsed flag set of `main()`.  `installNT` is the Windows
form of `--install` (a directory path), `installPosix` the POSIX form
(a boolean flag); only the one matching the platform is consulted. -/
structure MainArgs where
  project : Bool
  release : Bool
  backend : String
  shared : Bool
  prefixOpt : Option String
  dir : String
  xp : Bool
  installNT : Option String
  installPosix : Bool
  copylib : Bool
deriving DecidableEq

/-- The fields of the flag set that `build` reads. -/
def MainArgs.toBuildArgs (a : MainArgs) : BuildArgs :=
  ⟨a.project, a.release, a.backend, a.shared, a.prefixOpt, a.dir, a.xp⟩

/-- Python truthiness of an optional string (None and '' are falsy). -/
def optTruthy : Option String → Bool
  | none => false
  | some s => s != ""

/-- Model of `main()` after argument parsing (sys/meson.py lines
264-283): flag validation, prefix defaulting, then `build` and the
optional install phase.  Returns the exit code (`some 1` on validation
failure, `none` on a run that reaches the build) together with the
trace of performed steps. -/
def mainRun (isNT : Bool) (mesonExe : List String) (root : String)
    (args : MainArgs) (builddirExists : Bool)
    (pathExists : String → Bool) : Option Nat × List Step :=
  if args.project && (args.backend == "ninja") then (some 1, [])
  else if args.xp && (args.backend == "ninja") then (some 1, [])
  else if isNT && optTruthy args.installNT
          && pathExists (args.installNT.getD "") then (some 1, [])
  else
    let args2 := if isNT && !(optTruthy args.prefixOpt) then
        { args with
            prefixOpt := some (pathJoin (pathJoin root args.dir) "priv_install_dir") }
      else args
    let installRequested :=
      if isNT then optTruthy args2.installNT else args2.installPosix
    (none, buildSteps mesonExe root args2.toBuildArgs builddirExists
           ++ (if installRequested then [Step.runInstall] else []))

/-! ### Claims -/

/-- C2: `dedup_dependencies` (`vs_dedup`) is idempotent: applying the
per-file rewrite twice to any file content yields the same content as
applying it once; consequently re-running the whole pass over the build
tree changes nothing. -/
theorem c2_vs_dedup_idempotent :
    (∀ data : List Char,
      vs_dedup_content (vs_dedup_content data) = vs_dedup_content data)
    ∧ ∀ (fs : FileSys) (builddir : List String),
        vs_dedup_fs (vs_dedup_fs fs builddir) builddir = vs_dedup_fs fs builddir := by
  refine ⟨vs_dedup_content_idem, ?_⟩
  intro fs builddir
  simp only [vs_dedup_fs, List.map_map]
  apply List.map_congr_left
  intro e he
  by_cases hm : pathGlobMatch true (vcxprojPattern builddir) e.1 = true
  · simp [Function.comp, hm, vs_dedup_content_idem]
  · simp [Function.comp, hm]

/-- C3: for every run of the build orchestrator with an already
existing build directory, no step of the run is a generator (meson)
invocation. -/
theorem c3_no_generator_when_builddir_exists (mesonExe : List String)
    (root : String) (args : BuildArgs) :
    (buildSteps mesonExe root args true).all (fun s => !(s.isGenerator)) = true := by
  cases hxp : args.xp <;> cases hpr : args.project <;>
    by_cases hb : args.backend = "ninja" <;>
      simp [buildSteps, hxp, hpr, hb, Step.isGenerator]

/-- C4: with a non-existent build directory and the default `ninja`
backend, the orchestrator performs exactly one generator invocation
followed by exactly one executor invocation, the executor receiving the
build directory and an empty target list. -/
theorem c4_fresh_default_backend (mesonExe : List String) (root : String)
    (args : BuildArgs) (h : args.backend = "ninja") :
    buildSteps mesonExe root args false
      = [Step.callMeson (mesonCommand mesonExe root (pathJoin root args.dir)
           args.prefixOpt (some "ninja") args.release args.shared []),
         Step.callNinja (ninjaCommand (pathJoin root args.dir) [])] := by
  simp [buildSteps, h]

/-- Witness for C4 at a concrete flag set. -/
theorem c4_witness :
    buildSteps ["meson"] "/r2" ⟨false, false, "ninja", false, none, "build", false⟩ false
      = [Step.callMeson (mesonCommand ["meson"] "/r2" (pathJoin "/r2" "build")
           none (some "ninja") false false []),
         Step.callNinja (ninjaCommand (pathJoin "/r2" "build") [])] :=
  c4_fresh_default_backend ["meson"] "/r2" ⟨false, false, "ninja", false, none, "build", false⟩ rfl

/-- C7: with the default `ninja` backend, a flag set with
`project=True` (and likewise one with `xp=True`) fails validation in
`main` with exit code 1 and an empty step trace, i.e. before any
subprocess is invoked. -/
theorem c7_flag_validation (isNT : Bool) (mesonExe : List String) (root : String)
    (args : MainArgs) (builddirExists : Bool) (pathExists : String → Bool)
    (hbackend : args.backend = "ninja") :
    (args.project = true →
        mainRun isNT mesonExe root args builddirExists pathExists = (some 1, []))
    ∧ (args.xp = true →
        mainRun isNT mesonExe root args builddirExists pathExists = (some 1, [])) := by
  constructor
  · intro hp
    simp [mainRun, hbackend, hp]
  · intro hx
    cases hp : args.project
    · simp [mainRun, hbackend, hp, hx]
    · simp [mainRun, hbackend, hp]

/-- Flag set with `--project` and the default backend. -/
def c7args1 : MainArgs :=
  ⟨true, false, "ninja", false, none, "build", false, none, false, false⟩

/-- Flag set with `--xp` and the default backend. -/
def c7args2 : MainArgs :=
  ⟨false, false, "ninja", false, none, "build", true, none, false, false⟩

/-- Witness for C7 at two concrete flag sets. -/
theorem c7_witness :
    mainRun false ["meson"] "/r2" c7args1 false (fun _ => false) = (some 1, [])
    ∧ mainRun false ["meson"] "/r2" c7args2 false (fun _ => false) = (some 1, []) :=
  ⟨(c7_flag_validation false ["meson"] "/r2" c7args1 false (fun _ => false) rfl).1 rfl,
   (c7_flag_validation false ["meson"] "/r2" c7args2 false (fun _ => false) rfl).2 rfl⟩

/-- C1: for every project file under the build directory (matching the
recursive `*.vcxproj` glob) whose content contains the start marker
and, after it, the end marker, `vs_dedup` rewrites the file so that the
delimited field becomes the semicolon-join of a list that is strictly
sorted lexicographically, duplicate-free, and has exactly the members
of the original semicolon-split field — no entry lost, none added. -/
theorem c1_vs_dedup_membership {fs : FileSys} {builddir : List String}
    {p : List String} {c : List Char} {i j : Nat}
    (hmem : (p, c) ∈ fs)
    (hmatch : pathGlobMatch true (vcxprojPattern builddir) p = true)
    (h1 : findIdxOcc startMarker c = some i)
    (h2 : findIdxOcc endMarker (c.drop (i + startMarker.length)) = some j) :
    (p, vs_dedup_content c) ∈ vs_dedup_fs fs builddir
    ∧ vs_dedup_content c
        = c.take (i + startMarker.length)
          ++ joinSem (sortDedup (splitSem ((c.drop (i + startMarker.length)).take j)))
          ++ c.drop (i + startMarker.length + j)
    ∧ List.Pairwise (fun x y => lexLt x y = true)
        (sortDedup (splitSem ((c.drop (i + startMarker.length)).take j)))
    ∧ (sortDedup (splitSem ((c.drop (i + startMarker.length)).take j))).Nodup
    ∧ ∀ e, (e ∈ sortDedup (splitSem ((c.drop (i + startMarker.length)).take j))
        ↔ e ∈ splitSem ((c.drop (i + startMarker.length)).take j)) := by
  refine ⟨?_, vs_dedup_content_eq h1 h2, sorted_sortDedup _,
    nodup_of_sorted (sorted_sortDedup _), fun e => mem_sortDedup⟩
  have hf := List.mem_map_of_mem (fun e =>
    if pathGlobMatch true (vcxprojPattern builddir) e.1 then
      (e.1, vs_dedup_content e.2)
    else e) hmem
  simp only [vs_dedup_fs]
  simpa [hmatch] using hf

/-- Project file content used by the C1 and C10 witnesses. -/
def c1content : List Char :=
  "<AdditionalDependencies>b.lib;a.lib;b.lib;%(AdditionalDependencies)".data

/-- One-file build tree used by the C1 witness. -/
def c1fs : FileSys := [(["build", "sub", "x.vcxproj"], c1content)]

/-- Witness for C1 at a concrete project file. -/
theorem c1_witness :
    (["build", "sub", "x.vcxproj"], vs_dedup_content c1content)
        ∈ vs_dedup_fs c1fs ["build"]
    ∧ vs_dedup_content c1content
        = c1content.take (0 + startMarker.length)
          ++ joinSem (sortDedup (splitSem ((c1content.drop (0 + startMarker.length)).take 17)))
          ++ c1content.drop (0 + startMarker.length + 17)
    ∧ List.Pairwise (fun x y => lexLt x y = true)
        (sortDedup (splitSem ((c1content.drop (0 + startMarker.length)).take 17)))
    ∧ (sortDedup (splitSem ((c1content.drop (0 + startMarker.length)).take 17))).Nodup
    ∧ ∀ e, (e ∈ sortDedup (splitSem ((c1content.drop (0 + startMarker.length)).take 17))
        ↔ e ∈ splitSem ((c1content.drop (0 + startMarker.length)).take 17)) :=
  c1_vs_dedup_membership (List.mem_singleton.mpr rfl) (by decide) (by decide) (by decide)

/-- C10: when both markers are present, everything outside the first
delimited field is preserved byte-for-byte: the output is the original
prefix up to and including the first start marker, then some rewritten
field, then the original suffix beginning at the first subsequent end
marker (so in particular any later marker pairs, which lie inside that
suffix, are not rewritten). -/
theorem c10_frame {data : List Char} {i j : Nat}
    (h1 : findIdxOcc startMarker data = some i)
    (h2 : findIdxOcc endMarker (data.drop (i + startMarker.length)) = some j) :
    ∃ mid, vs_dedup_content data
        = data.take i ++ startMarker ++ mid ++ data.drop (i + startMarker.length + j)
      ∧ endMarker.isPrefixOf (data.drop (i + startMarker.length + j)) = true := by
  have hS := findIdxOcc_occ h1
  have htk : data.take (i + startMarker.length) = data.take i ++ startMarker := by
    rw [List.take_add]
    congr 1
    exact isPrefixOf_iff_take.mp hS
  refine ⟨joinSem (sortDedup (splitSem ((data.drop (i + startMarker.length)).take j))),
    ?_, ?_⟩
  · rw [vs_dedup_content_eq h1 h2, htk]
  · have hE := findIdxOcc_occ h2
    rw [List.drop_drop] at hE
    exact hE

/-- Witness for C10 at a concrete project file content. -/
theorem c10_witness :
    ∃ mid, vs_dedup_content c1content
        = c1content.take 0 ++ startMarker ++ mid
          ++ c1content.drop (0 + startMarker.length + 17)
      ∧ endMarker.isPrefixOf (c1content.drop (0 + startMarker.length + 17)) = true :=
  c10_frame (by decide) (by decide)

/-- C6: when the toolset token extracted from the top-level project
file already ends in `_xp`, `xp_compat` returns with the file set
unchanged (idempotent no-op). -/
theorem c6_xp_compat_skip {fs : FileSys} {builddir : List String}
    {content version : List Char}
    (hread : lookupFile fs (builddir ++ ["REGEN.vcxproj"]) = some content)
    (hsearch : searchPlatformToolset content = some version)
    (hsuffix : "_xp".data.isSuffixOf version = true) :
    xp_compat fs builddir = Except.ok fs := by
  simp [xp_compat, hread, hsearch, hsuffix]

/-- REGEN.vcxproj content with an already suffixed toolset token. -/
def c6content : List Char := "<PlatformToolset>v140_xp</PlatformToolset>".data

/-- One-file build tree used by the C6 witness. -/
def c6fs : FileSys := [(["build", "REGEN.vcxproj"], c6content)]

/-- Witness for C6 at a concrete build tree. -/
theorem c6_witness : xp_compat c6fs ["build"] = Except.ok c6fs :=
  c6_xp_compat_skip
    (show lookupFile c6fs (["build"] ++ ["REGEN.vcxproj"]) = some c6content by decide)
    (show searchPlatformToolset c6content = some "v140_xp".data by decide)
    (by decide)

/-- C8: when the toolset marker is absent from the top-level project
file, `xp_compat` fails with the parse error instead of succeeding or
rewriting any file. -/
theorem c8_xp_compat_parse_error {fs : FileSys} {builddir : List String}
    {content : List Char}
    (hread : lookupFile fs (builddir ++ ["REGEN.vcxproj"]) = some content)
    (hsearch : searchPlatformToolset content = none) :
    xp_compat fs builddir = Except.error XpError.parseError := by
  simp [xp_compat, hread, hsearch]

/-- REGEN.vcxproj content without the toolset marker. -/
def c8content : List Char := "<Project></Project>".data

/-- One-file build tree used by the C8 witness. -/
def c8fs : FileSys := [(["build", "REGEN.vcxproj"], c8content)]

/-- Witness for C8 at a concrete build tree. -/
theorem c8_witness : xp_compat c8fs ["build"] = Except.error XpError.parseError :=
  c8_xp_compat_parse_error
    (show lookupFile c8fs (["build"] ++ ["REGEN.vcxproj"]) = some c8content by decide)
    (show searchPlatformToolset c8content = none by decide)

/-- C9: when the expanded source glob of `copy` matches no existing
entry, the operation performs no `shutil.copy2` call and returns with
the filesystem (in particular the destination) unchanged — a no-op,
not an error. -/
theorem c9_copy_zero_matches (fs : MFS) (src dst : List String)
    (h : (allPaths fs).all
      (fun p => !(pathGlobMatch (hasDoubleStar src) src p)) = true) :
    copyOp fs src dst = fs := by
  have hnil : copyMatches (allPaths fs) src = [] := by
    simp only [copyMatches, iglob]
    apply List.filter_eq_nil_iff.mpr
    intro a ha
    have h2 := List.all_eq_true.mp h a ha
    simp only [Bool.not_eq_true'] at h2
    simp [h2]
  simp only [copyOp, hnil, List.foldl_nil]

/-- Staging filesystem used by the C9 witness. -/
def c9fs : MFS := ⟨[(["build", "a.txt"], [])], [["build"], ["dist"]]⟩

/-- Witness for C9: a pattern matching no entry leaves the filesystem
unchanged. -/
theorem c9_witness :
    (allPaths c9fs).all
      (fun p => !(pathGlobMatch (hasDoubleStar ["build", "*.exe"]) ["build", "*.exe"] p)) = true
    ∧ copyOp c9fs ["build", "*.exe"] ["dist"] = c9fs :=
  ⟨by decide, c9_copy_zero_matches c9fs ["build", "*.exe"] ["dist"] (by decide)⟩

/-- Filesystem entries for the C5 counterexample: one file two levels
below the pattern root. -/
def c5paths : List (List String) := [["bd", "x", "y", "a.exe"]]

/-- Source pattern with a double-wildcard segment. -/
def c5pat : List String := ["bd", "**", "*.exe"]

/-- C5 counterexample: for a source pattern containing a `**` segment,
the set of entries `move` iterates over (a non-recursive glob, since
`move` does not pass `recursive=True`) differs from the matches of a
recursive glob of that pattern, while `copy` does resolve exactly to
the recursive matches. -/
theorem c5_counterexample :
    ((moveMatches c5paths c5pat == iglob c5paths c5pat true) = false)
    ∧ ((copyMatches c5paths c5pat == iglob c5paths c5pat true) = true) := by
  constructor
  · decide
  · decide

/-- C5 (amended): `move` resolves its expanded source with a
non-recursive glob — a `**` segment matches exactly one path component
— so the set of entries it moves equals the non-recursive glob matches
and is always a subset of (but not necessarily equal to) the entries
`copy` would resolve for the same pattern. -/
theorem c5_move_nonrecursive (paths : List (List String)) (src : List String) :
    moveMatches paths src = iglob paths src false
    ∧ (moveMatches paths src).all
        (fun p => (copyMatches paths src).contains p) = true :=
  ⟨rfl, moveMatches_subset_copyMatches paths src⟩

end R2Meson
